import Mathlib

/-!
Verification development for the `dualread/voice` repository.

Shallow embedding of the two scripts:
* `src/convert_words_to_mp3.py` — word-list-to-audio pipeline (parser,
  speech synthesis with retry/fallback, silence generation, assembly,
  directory driver);
* `src/longman3000/categorize_words.py` — vocabulary categorizer
  (translation with cache, category splitting, category file output).

External services (the speech backend, the audio tool, the translation
backend) are modelled as oracles passed in explicitly; file-system reads
become explicit lists of lines.
-/

namespace Voice

/-! ## Word-list parser (`parse_word_file`, src/convert_words_to_mp3.py lines 65-85)

A line of the input file is a `List Char`.  `isPySpace` captures the
whitespace characters recognised by Python's `str.strip` / `str.split(None)`
(the ASCII whitespace class; the inputs of this repository are ordinary
text lines). -/

def isPySpace (c : Char) : Bool :=
  c = ' ' || c = '\t' || c = '\n' || c = '\r' || c = '\x0b' || c = '\x0c'

/-- Python `line.strip()`: drop leading and trailing whitespace. -/
def pyStrip (s : List Char) : List Char :=
  ((s.dropWhile isPySpace).reverse.dropWhile isPySpace).reverse

/-- Python `line.split(None, 1)`: split on the first run of whitespace into
at most two parts, discarding leading whitespace; an all-whitespace string
gives `[]`. -/
def splitNoneOnce (s : List Char) : List (List Char) :=
  let s1 := s.dropWhile isPySpace
  if s1 = [] then []
  else
    let first := s1.takeWhile (fun c => !isPySpace c)
    let rest := (s1.dropWhile (fun c => !isPySpace c)).dropWhile isPySpace
    if rest = [] then [first] else [first, rest]

/-- One parsed line: `(中文, 英文)`; the second component is `none` for a
title/header line that has no secondary text. -/
structure WordEntry where
  chinese : List Char
  english : Option (List Char)
deriving DecidableEq, Repr

/-- The body of the `for` loop of `parse_word_file`: `none` means the line is
skipped (blank after strip, or comment), otherwise the entry appended. -/
def parseLine (line : List Char) : Option WordEntry :=
  let l := pyStrip line
  if l = [] then none
  else if l.head? = some '#' then none
  else
    match splitNoneOnce l with
    | [a] => some ⟨a, none⟩
    | a :: b :: _ => some ⟨a, some b⟩
    | [] => none

/-- Embedding of `parse_word_file`: the file is given as its list of lines. -/
def parse_word_file (lines : List (List Char)) : List WordEntry :=
  lines.filterMap parseLine

/-! ## Speech synthesis with retry (`text_to_speech`, lines 32-48)

The external speech backend is an oracle `attemptOk : Nat → Bool` telling
whether the k-th invocation (0-based) for this text succeeds; the external
audio tool used by the silent fallback is the oracle `silenceOk : Bool`
(`generate_silence`, lines 155-167, runs `ffmpeg` with `check=True`, so a
tool failure raises).  `MAX_RETRIES = 3`. -/

def MAX_RETRIES : Nat := 3

inductive SynthOutcome where
  /-- Success: `communicate.save` wrote the requested speech. -/
  | saved : SynthOutcome
  /-- all attempts failed; a 100 ms silent clip was written instead. -/
  | fellBackToSilence : SynthOutcome
deriving DecidableEq, Repr

/-- Observable behaviour of one `text_to_speech` call. -/
structure SynthTrace where
  /-- number of invocations of the voice backend -/
  backendCalls : Nat
  /-- number of `asyncio.sleep(1)` waits (one between consecutive attempts) -/
  sleeps : Nat
  /-- whether the warning line was printed -/
  warned : Bool
  outcome : SynthOutcome
deriving DecidableEq, Repr

inductive ProcError where
  /-- Failure: `subprocess.run(..., check=True)` raised `CalledProcessError`. -/
  | calledProcessError : ProcError
deriving DecidableEq, Repr

/-- The `for attempt in range(MAX_RETRIES)` loop; `fuel` is the number of
remaining iterations (`MAX_RETRIES - attempt`), so the code's test
`attempt < MAX_RETRIES - 1` is `1 ≤ fuel` after consuming one iteration. -/
def ttsAttempts (attemptOk : Nat → Bool) (silenceOk : Bool) :
    Nat → Nat → Except ProcError SynthTrace
  | _, 0 => .ok ⟨0, 0, false, .fellBackToSilence⟩
  | attempt, fuel + 1 =>
    if attemptOk attempt then
      .ok ⟨1, 0, false, .saved⟩
    else if 1 ≤ fuel then
      match ttsAttempts attemptOk silenceOk (attempt + 1) fuel with
      | .ok t => .ok ⟨t.backendCalls + 1, t.sleeps + 1, t.warned, t.outcome⟩
      | .error e => .error e
    else
      if silenceOk then .ok ⟨1, 0, true, .fellBackToSilence⟩
      else .error .calledProcessError

/-- Embedding of `text_to_speech(text, voice, output_file)` for one text fragment. -/
def text_to_speech (attemptOk : Nat → Bool) (silenceOk : Bool) :
    Except ProcError SynthTrace :=
  ttsAttempts attemptOk silenceOk 0 MAX_RETRIES

/-! ## Fragment assembly (`convert_file_to_mp3`, lines 88-152)

`audio_files` is modelled as a list of fragments tagged with their origin:
the speech clip of entry `i` in one of the two languages (a failed synthesis
degrades to silence but still occupies this slot), the shared 500 ms
inter-language silence, or the shared 800 ms inter-word silence. -/

inductive Lang where
  | zh : Lang
  | en : Lang
deriving DecidableEq, Repr

inductive Fragment where
  /-- Speech clip `word_i_zh.mp3` / `word_i_en.mp3` of entry `i` -/
  | speech (i : Nat) (lang : Lang) : Fragment
  /-- Shared `short_silence.mp3` (500 ms, between the two languages) -/
  | interLang : Fragment
  /-- Shared `silence.mp3` (800 ms, between words) -/
  | interWord : Fragment
deriving DecidableEq, Repr

/-- Fragments appended for entry `i`: Chinese only when `english` is absent,
otherwise Chinese, short silence, English. -/
def entryFragments (i : Nat) (e : WordEntry) : List Fragment :=
  match e.english with
  | none => [.speech i .zh]
  | some _ => [.speech i .zh, .interLang, .speech i .en]

/-- The `audio_files` list built by the loop of `convert_file_to_mp3`:
entry fragments in document order, with `silence.mp3` appended after every
entry whose index satisfies `i < len(words) - 1`. -/
def buildFragments (words : List WordEntry) : List Fragment :=
  (words.enum.map (fun p =>
    entryFragments p.1 p.2 ++
      if p.1 < words.length - 1 then [Fragment.interWord] else [])).flatten

/-- External audio tool behaviour for one conversion job: whether the two
`generate_silence` calls and the final `merge_audio_files` call succeed
(`subprocess.run(..., check=True)` raises on failure, lines 155-187). -/
structure ExtTool where
  silenceOk : Bool
  mergeOk : Bool
deriving DecidableEq, Repr

/-- Embedding of `generate_silence(output_file, duration_ms)` (lines 155-167): no
recovery, a tool failure propagates. -/
def generate_silence (tool : ExtTool) : Except ProcError Unit :=
  if tool.silenceOk then .ok () else .error .calledProcessError

/-- Embedding of `merge_audio_files(audio_files, output_file, temp_dir)` (lines 170-187):
no recovery, a tool failure propagates. -/
def merge_audio_files (tool : ExtTool) (frags : List Fragment) :
    Except ProcError (List Fragment) :=
  if tool.mergeOk then .ok frags else .error .calledProcessError

inductive JobResult where
  /-- Validation failed: `parse_word_file` returned no entries, the error message is printed
  and the job returns `False` without touching the external tools. -/
  | emptyInput : JobResult
  /-- the job completed; `frags` is the fragment list handed to
  `merge_audio_files`. -/
  | completed (frags : List Fragment) : JobResult
deriving DecidableEq, Repr

/-- The per-entry synthesis of the main loop of `convert_file_to_mp3`
(lines 119-141): one `text_to_speech` call for a Chinese-only entry, two
(gathered) calls for a bilingual one.  `synthOk i lang k` is the backend
oracle for attempt `k` of entry `i` in language `lang`. -/
def synthesizeAll (silenceOk : Bool) (synthOk : Nat → Lang → Nat → Bool) :
    List (Nat × WordEntry) → Except ProcError Unit
  | [] => .ok ()
  | p :: rest =>
    match p.2.english with
    | none =>
        (text_to_speech (synthOk p.1 .zh) silenceOk).bind (fun _ =>
          synthesizeAll silenceOk synthOk rest)
    | some _ =>
        (text_to_speech (synthOk p.1 .zh) silenceOk).bind (fun _ =>
        (text_to_speech (synthOk p.1 .en) silenceOk).bind (fun _ =>
          synthesizeAll silenceOk synthOk rest))

/-- Embedding of `convert_file_to_mp3(input_file)`: parse, validate non-emptiness,
generate the two shared silence clips, synthesize every entry (failures
degrade to silence inside `text_to_speech` and never raise once the audio
tool works), and merge once. -/
def convert_file_to_mp3 (tool : ExtTool) (synthOk : Nat → Lang → Nat → Bool)
    (lines : List (List Char)) : Except ProcError JobResult :=
  let words := parse_word_file lines
  if words = [] then
    .ok .emptyInput
  else
    -- silence.mp3 (PAUSE_BETWEEN_WORDS), short_silence.mp3
    -- (PAUSE_BETWEEN_LANGUAGES), the per-word loop, the final merge
    (generate_silence tool).bind (fun _ =>
    (generate_silence tool).bind (fun _ =>
    (synthesizeAll tool.silenceOk synthOk words.enum).bind (fun _ =>
    (merge_audio_files tool (buildFragments words)).map .completed)))

/-- Embedding of `process_directory(directory)` (lines 190-201): run
`convert_file_to_mp3` on every `.txt` file in order; an exception from one
job aborts the batch, an ordinary `False` return does not. -/
def process_directory (tool : ExtTool) (synthOk : Nat → Lang → Nat → Bool) :
    List (List (List Char)) → Except ProcError (List JobResult)
  | [] => .ok []
  | f :: rest =>
    (convert_file_to_mp3 tool synthOk f).bind (fun r =>
      (process_directory tool synthOk rest).map (fun rs => r :: rs))

/-! ## Categorizer (`src/longman3000/categorize_words.py`)

Python dictionaries are modelled as `String → Option String` (updated with
`Function.update`); the category dictionary, whose iteration order is
insertion order, as an association list. -/

/-- Python stepped slicing `l[i*step : (i+1)*step]` for
`i in range(ceil(len(l)/step))`: the slice shape of both
`split_large_categories` (lines 256-260) and the batching loop of
`translate_words` (lines 200-201). -/
def pySlices {α : Type} (step : Nat) (l : List α) : List (List α) :=
  (List.range ((l.length + step - 1) / step)).map
    (fun i => (l.drop (i * step)).take step)

/-- The body of the loop of `split_large_categories` (lines 251-265) for one
`(cat_name, words)` item: kept whole when within `max_size`, otherwise cut
into `num_parts = ceil(len/max_size)` consecutive slices named
`{cat_name}_{i+1}`. -/
def splitOneCategory (max_size : Nat) (cat : String × List String) :
    List (String × List String) :=
  if cat.2.length ≤ max_size then [cat]
  else
    let num_parts := (cat.2.length + max_size - 1) / max_size
    (List.range num_parts).map (fun i =>
      ((if 1 < num_parts then cat.1 ++ "_" ++ toString (i + 1) else cat.1),
       (cat.2.drop (i * max_size)).take max_size))

/-- Embedding of `split_large_categories(categories, max_size)` (lines 247-267); the
result dict is modelled as the association list of insertions in order. -/
def split_large_categories (categories : List (String × List String))
    (max_size : Nat) : List (String × List String) :=
  categories.flatMap (splitOneCategory max_size)

/-- External translation backend: `batchLines b` is the `'\n'`-split of the
result of a successful batched call on batch `b` (`none` when the call
raised); `oneResult w` is the per-word fallback call (`none` when it too
raised). -/
structure TransBackend where
  batchLines : List String → Option (List String)
  oneResult : String → Option String

/-- Python `trans.strip()` on a `String`. -/
def pyStripStr (s : String) : String :=
  ⟨pyStrip s.data⟩

/-- One iteration of the batching loop of `translate_words`
(lines 200-221): on a successful batched call, `zip(batch, translated)`
inserts one stripped translation per zipped word; if the batched call
raised, each word of the batch is translated individually, falling back to
the word itself when that call raises as well. -/
def translateBatch (backend : TransBackend) (tr : String → Option String)
    (batch : List String) : String → Option String :=
  match backend.batchLines batch with
  | some translated =>
      (batch.zip translated).foldl
        (fun t p => Function.update t p.1 (some (pyStripStr p.2))) tr
  | none =>
      batch.foldl
        (fun t w => Function.update t w
          (match backend.oneResult w with
           | some tw => some tw          -- `translations[word] = trans`
           | none => some w)) tr         -- `translations[word] = word`

/-- Embedding of `words_to_translate = [w for w in words if w not in translations]`
(line 192). -/
def words_to_translate (translations : String → Option String)
    (words : List String) : List String :=
  words.filter (fun w => translations w = none)

/-- Embedding of `translate_words(words, cache_file)` (lines 178-229): start from the
loaded cache, translate the uncached words in batches of 50, return the
merged mapping (also what is rewritten to the cache file). -/
def translate_words (backend : TransBackend)
    (cache : String → Option String) (words : List String) :
    String → Option String :=
  (pySlices 50 (words_to_translate cache words)).foldl
    (translateBatch backend) cache

/-- The words contained in the requests `translate_words` issues to the
backend: every batch is sent once as one `'\n'`-joined request; when that
call raised, each word of the batch is additionally sent individually. -/
def sentWords (backend : TransBackend) (cache : String → Option String)
    (words : List String) : List String :=
  (pySlices 50 (words_to_translate cache words)).flatMap
    (fun batch =>
      match backend.batchLines batch with
      | some _ => batch
      | none => batch ++ batch)

/-- Embedding of `cat_name.replace` removing every underscore (line 277): the display title. -/
def display_name (cat_name : String) : String :=
  ⟨cat_name.data.filter (fun c => c ≠ '_')⟩

/-- The lines written to `{cat_name}.txt` by `save_categories`
(lines 274-286): the display title, then one `"<translated> <word>"` line
per word in `sorted(words)` order, the translation defaulting to the word
itself (`translations.get(word, word)`). -/
def save_category_lines (translations : String → Option String)
    (cat_name : String) (words : List String) : List String :=
  display_name cat_name ::
    (words.mergeSort (fun a b => a ≤ b)).map
      (fun w => (translations w).getD w ++ " " ++ w)

/-- Embedding of `save_categories(categories, output_dir, translations)`: one file per
category, as `(category name, lines written)`. -/
def save_categories (translations : String → Option String)
    (categories : List (String × List String)) :
    List (String × List String) :=
  categories.map (fun c => (c.1, save_category_lines translations c.1 c.2))

/-! ## Helper lemmas on the parser -/

lemma dropWhile_append_last {p : Char → Bool} {c : Char} (hc : p c = false)
    (l : List Char) : ∃ m, (l ++ [c]).dropWhile p = m ++ [c] := by
  induction l with
  | nil => exact ⟨[], by simp [List.dropWhile_cons, hc]⟩
  | cons a l ih =>
    by_cases ha : p a = true
    · obtain ⟨m, hm⟩ := ih
      exact ⟨m, by simp [List.dropWhile_cons, ha, hm]⟩
    · exact ⟨a :: l, by simp [List.dropWhile_cons, ha]⟩

/-- Stripping a line whose first character is not whitespace keeps that
character in front. -/
lemma pyStrip_head_of_not_space {c : Char} (hc : isPySpace c = false)
    (t : List Char) : (pyStrip (c :: t)).head? = some c := by
  have h1 : (c :: t).dropWhile isPySpace = c :: t := by
    simp [List.dropWhile_cons, hc]
  obtain ⟨m, hm⟩ := dropWhile_append_last hc t.reverse
  simp [pyStrip, h1, hm]

lemma parseLine_of_blank {line : List Char} (h : pyStrip line = []) :
    parseLine line = none := by
  simp [parseLine, h]

lemma parseLine_of_comment {line : List Char} (h : line.head? = some '#') :
    parseLine line = none := by
  obtain ⟨t, rfl⟩ : ∃ t, line = '#' :: t := by
    cases line with
    | nil => simp at h
    | cons a t =>
      simp at h
      exact ⟨t, by rw [h]⟩
  have hd : (pyStrip ('#' :: t)).head? = some '#' :=
    pyStrip_head_of_not_space (by decide) t
  have hne : pyStrip ('#' :: t) ≠ [] := by
    intro h0
    rw [h0] at hd
    simp at hd
  simp [parseLine, hne, hd]

lemma parseLine_single {line a : List Char} (hne : pyStrip line ≠ [])
    (hh : (pyStrip line).head? ≠ some '#')
    (hs : splitNoneOnce (pyStrip line) = [a]) :
    parseLine line = some ⟨a, none⟩ := by
  simp [parseLine, hne, hh, hs]

lemma parseLine_pair {line a b : List Char} (hne : pyStrip line ≠ [])
    (hh : (pyStrip line).head? ≠ some '#')
    (hs : splitNoneOnce (pyStrip line) = [a, b]) :
    parseLine line = some ⟨a, some b⟩ := by
  simp [parseLine, hne, hh, hs]

lemma splitNoneOnce_length_le (s : List Char) : (splitNoneOnce s).length ≤ 2 := by
  simp only [splitNoneOnce]
  split_ifs <;> simp

/-- Claim C2: `parse_word_file` keeps one `WordEntry` per non-blank,
non-comment line, in line order: parsing is per line and concatenates in
document order; each kept line is split into at most two parts; a
whitespace-only line and a `#'`-initial line are dropped; a one-part line
yields an entry with no English text, a two-part line an entry with both
fields; and the two-line file `苹果 apple` / `香蕉 banana` parses to those
two bilingual entries. -/
theorem C2_parse_word_file :
    (∀ l₁ l₂ : List (List Char),
        parse_word_file (l₁ ++ l₂) = parse_word_file l₁ ++ parse_word_file l₂)
  ∧ (∀ line : List Char, parse_word_file [line] = (parseLine line).toList)
  ∧ (∀ line : List Char, (splitNoneOnce (pyStrip line)).length ≤ 2)
  ∧ (∀ line : List Char, pyStrip line = [] → parseLine line = none)
  ∧ (∀ line : List Char, line.head? = some '#' → parseLine line = none)
  ∧ (∀ (line a : List Char), pyStrip line ≠ [] →
        (pyStrip line).head? ≠ some '#' →
        splitNoneOnce (pyStrip line) = [a] →
        parseLine line = some ⟨a, none⟩)
  ∧ (∀ (line a b : List Char), pyStrip line ≠ [] →
        (pyStrip line).head? ≠ some '#' →
        splitNoneOnce (pyStrip line) = [a, b] →
        parseLine line = some ⟨a, some b⟩)
  ∧ parse_word_file ["苹果 apple".data, "香蕉 banana".data] =
      [⟨"苹果".data, some "apple".data⟩, ⟨"香蕉".data, some "banana".data⟩] := by
  refine ⟨fun l₁ l₂ => List.filterMap_append l₁ l₂ parseLine,
    fun line => ?_, fun line => splitNoneOnce_length_le _,
    fun line => parseLine_of_blank,
    fun line => parseLine_of_comment,
    fun line a => parseLine_single,
    fun line a b => parseLine_pair, by decide⟩
  cases h : parseLine line <;> simp [parse_word_file, h]

/-- Witness for C2 at concrete lines. -/
theorem C2_witness :
    parseLine "   ".data = none ∧
    parseLine "# note".data = none ∧
    parseLine "title".data = some ⟨"title".data, none⟩ ∧
    parseLine "苹果 apple".data = some ⟨"苹果".data, some "apple".data⟩ :=
  ⟨C2_parse_word_file.2.2.2.1 "   ".data (by decide),
   C2_parse_word_file.2.2.2.2.1 "# note".data (by decide),
   C2_parse_word_file.2.2.2.2.2.1 "title".data "title".data
     (by decide) (by decide) (by decide),
   C2_parse_word_file.2.2.2.2.2.2.1 "苹果 apple".data "苹果".data "apple".data
     (by decide) (by decide) (by decide)⟩

/-! ## Helper lemmas on speech synthesis and the conversion job -/

lemma ttsAttempts_ok (a : Nat → Bool) : ∀ (fuel attempt : Nat),
    ∃ t : SynthTrace, ttsAttempts a true attempt fuel = .ok t ∧
      t.backendCalls ≤ fuel ∧ t.sleeps = t.backendCalls - 1 ∧
      (1 ≤ fuel → 1 ≤ t.backendCalls)
  | 0, attempt => ⟨⟨0, 0, false, .fellBackToSilence⟩, rfl, Nat.le_refl 0,
      rfl, by omega⟩
  | fuel + 1, attempt => by
    by_cases h : a attempt = true
    · refine ⟨⟨1, 0, false, .saved⟩, by simp [ttsAttempts, h], ?_, rfl,
        fun _ => le_refl 1⟩
      show 1 ≤ fuel + 1
      omega
    · by_cases hf : 1 ≤ fuel
      · obtain ⟨t, ht, hc, hs, h1⟩ := ttsAttempts_ok a fuel (attempt + 1)
        refine ⟨⟨t.backendCalls + 1, t.sleeps + 1, t.warned, t.outcome⟩,
          ?_, ?_, ?_, fun _ => ?_⟩
        · simp [ttsAttempts, h, hf, ht]
        · show t.backendCalls + 1 ≤ fuel + 1
          omega
        · show t.sleeps + 1 = t.backendCalls + 1 - 1
          have := h1 hf
          omega
        · show 1 ≤ t.backendCalls + 1
          omega
      · have hf0 : fuel = 0 := by omega
        subst hf0
        refine ⟨⟨1, 0, true, .fellBackToSilence⟩, by simp [ttsAttempts, h],
          ?_, rfl, fun _ => le_refl 1⟩
        show 1 ≤ 0 + 1
        omega

lemma text_to_speech_ok (a : Nat → Bool) :
    ∃ t : SynthTrace, text_to_speech a true = .ok t ∧
      t.backendCalls ≤ 3 ∧ t.sleeps = t.backendCalls - 1 ∧
      1 ≤ t.backendCalls := by
  obtain ⟨t, ht, hc, hs, h1⟩ := ttsAttempts_ok a 3 0
  exact ⟨t, ht, hc, hs, h1 (by omega)⟩

lemma synthesizeAll_ok (synthOk : Nat → Lang → Nat → Bool)
    (ps : List (Nat × WordEntry)) : synthesizeAll true synthOk ps = .ok () := by
  induction ps with
  | nil => rfl
  | cons p rest ih =>
    obtain ⟨tz, htz, -, -, -⟩ := text_to_speech_ok (synthOk p.1 .zh)
    obtain ⟨te, hte, -, -, -⟩ := text_to_speech_ok (synthOk p.1 .en)
    cases he : p.2.english <;>
      simp [synthesizeAll, he, htz, hte, ih, Except.bind]

/-- Claim C3: For every text fragment the synthesizer invokes the voice
backend at most 3 times with one 1-second wait between consecutive
attempts; when all 3 attempts fail it propagates no error: it records the
warning and degrades to a 100 ms silent clip at the requested path. -/
theorem C3_retry_and_fallback (attemptOk : Nat → Bool) :
    (∃ t : SynthTrace, text_to_speech attemptOk true = .ok t ∧
        t.backendCalls ≤ 3 ∧ t.sleeps = t.backendCalls - 1)
  ∧ ((∀ k, k < 3 → attemptOk k = false) →
      text_to_speech attemptOk true =
        .ok ⟨3, 2, true, .fellBackToSilence⟩) := by
  constructor
  · obtain ⟨t, ht, hc, hs, -⟩ := text_to_speech_ok attemptOk
    exact ⟨t, ht, hc, hs⟩
  · intro h
    have h0 := h 0 (by omega)
    have h1 := h 1 (by omega)
    have h2 := h 2 (by omega)
    simp [text_to_speech, MAX_RETRIES, ttsAttempts, h0, h1, h2]

/-- Witness for C3: a backend failing on every attempt. -/
theorem C3_witness :
    text_to_speech (fun _ => false) true =
      .ok ⟨3, 2, true, .fellBackToSilence⟩ :=
  (C3_retry_and_fallback (fun _ => false)).2 (fun _ _ => rfl)

/-- Claim C4: The conversion job fails with the empty-input error exactly when
the parsed sequence is empty, which happens exactly when the file has no
non-blank, non-comment line. -/
theorem C4_empty_input (tool : ExtTool) (synthOk : Nat → Lang → Nat → Bool)
    (lines : List (List Char)) :
    (convert_file_to_mp3 tool synthOk lines = .ok .emptyInput ↔
        parse_word_file lines = [])
  ∧ (parse_word_file lines = [] ↔ ∀ line ∈ lines, parseLine line = none) := by
  constructor
  · constructor
    · intro h
      by_contra hne
      cases hsil : tool.silenceOk with
      | false =>
        simp [convert_file_to_mp3, hne, generate_silence, hsil,
          Except.bind] at h
      | true =>
        cases hmerge : tool.mergeOk with
        | false =>
          simp [convert_file_to_mp3, hne, generate_silence, hsil,
            merge_audio_files, hmerge, synthesizeAll_ok, Except.bind,
            Except.map] at h
        | true =>
          simp [convert_file_to_mp3, hne, generate_silence, hsil,
            merge_audio_files, hmerge, synthesizeAll_ok, Except.bind,
            Except.map] at h
    · intro h
      simp [convert_file_to_mp3, h]
  · show List.filterMap parseLine lines = [] ↔ _
    exact List.filterMap_eq_nil_iff

/-- Witness for C4 on a comment-only file. -/
theorem C4_witness :
    convert_file_to_mp3 ⟨true, true⟩ (fun _ _ _ => true) ["# c".data] =
      .ok .emptyInput :=
  (C4_empty_input ⟨true, true⟩ (fun _ _ _ => true) ["# c".data]).1.mpr
    (by decide)

/-- Claim C8: A failure of the external audio tool during silence generation
or during the final concatenation propagates out of the job as an error,
while a per-word synthesis failure is absorbed and never is one. -/
theorem C8_tool_failures_fatal :
    (∀ (synthOk : Nat → Lang → Nat → Bool) (mergeOk : Bool)
        (lines : List (List Char)), parse_word_file lines ≠ [] →
        convert_file_to_mp3 ⟨false, mergeOk⟩ synthOk lines =
          .error .calledProcessError)
  ∧ (∀ (synthOk : Nat → Lang → Nat → Bool) (lines : List (List Char)),
        parse_word_file lines ≠ [] →
        convert_file_to_mp3 ⟨true, false⟩ synthOk lines =
          .error .calledProcessError)
  ∧ (∀ attemptOk : Nat → Bool, ∃ t : SynthTrace,
        text_to_speech attemptOk true = .ok t) := by
  refine ⟨fun synthOk mergeOk lines h => ?_, fun synthOk lines h => ?_,
    fun a => ?_⟩
  · simp [convert_file_to_mp3, h, generate_silence, Except.bind]
  · simp [convert_file_to_mp3, h, generate_silence, synthesizeAll_ok,
      merge_audio_files, Except.bind, Except.map]
  · obtain ⟨t, ht, -, -, -⟩ := text_to_speech_ok a
    exact ⟨t, ht⟩

/-- Witness for C8 on a one-word file. -/
theorem C8_witness :
    convert_file_to_mp3 ⟨false, true⟩ (fun _ _ _ => true) ["苹果 apple".data] =
      .error .calledProcessError ∧
    convert_file_to_mp3 ⟨true, false⟩ (fun _ _ _ => true) ["苹果 apple".data] =
      .error .calledProcessError :=
  ⟨C8_tool_failures_fatal.1 _ true _ (by decide),
   C8_tool_failures_fatal.2.1 _ _ (by decide)⟩

lemma convert_ok (synthOk : Nat → Lang → Nat → Bool)
    (lines : List (List Char)) :
    convert_file_to_mp3 ⟨true, true⟩ synthOk lines =
      .ok (if parse_word_file lines = [] then .emptyInput
        else .completed (buildFragments (parse_word_file lines))) := by
  by_cases h : parse_word_file lines = []
  · simp [convert_file_to_mp3, h]
  · simp [convert_file_to_mp3, h, generate_silence, synthesizeAll_ok,
      merge_audio_files, Except.bind, Except.map]

/-- Claim C6: In directory mode every discovered file is one independent,
sequentially run job: with a functioning audio tool the batch never aborts,
files with no usable entries report the empty-input failure in their slot,
and every other file completes — the failing file does not stop the ones
after it. -/
theorem C6_directory_continues (synthOk : Nat → Lang → Nat → Bool)
    (files : List (List (List Char))) :
    process_directory ⟨true, true⟩ synthOk files =
      .ok (files.map (fun f =>
        if parse_word_file f = [] then JobResult.emptyInput
        else JobResult.completed (buildFragments (parse_word_file f)))) := by
  induction files with
  | nil => rfl
  | cons f rest ih =>
    simp [process_directory, convert_ok, ih, Except.bind, Except.map]

/-- Witness for C6: an empty-input file followed by a convertible file. -/
theorem C6_witness :
    process_directory ⟨true, true⟩ (fun _ _ _ => true)
        [["# comment".data], ["苹果 apple".data]] =
      .ok [JobResult.emptyInput,
        JobResult.completed
          (buildFragments (parse_word_file ["苹果 apple".data]))] := by
  rw [C6_directory_continues]
  rfl

/-! ## Helper lemmas on fragment assembly -/

lemma buildFrags_enumFrom (L : Nat) : ∀ (ws : List WordEntry) (n : Nat),
    n + ws.length = L →
    ((List.enumFrom n ws).map (fun p =>
        entryFragments p.1 p.2 ++
          if p.1 < L - 1 then [Fragment.interWord] else [])).flatten =
      (List.intersperse [Fragment.interWord]
        ((List.enumFrom n ws).map (fun p => entryFragments p.1 p.2))).flatten := by
  intro ws
  induction ws with
  | nil => intro n _; rfl
  | cons e ws ih =>
    intro n hL
    cases ws with
    | nil =>
      have hc : ¬ (n < L - 1) := by
        simp only [List.length_cons, List.length_nil] at hL
        omega
      simp [List.enumFrom_cons, hc]
    | cons e' ws' =>
      have hc : n < L - 1 := by
        simp only [List.length_cons] at hL
        omega
      have ih' := ih (n + 1) (by
        simp only [List.length_cons] at hL ⊢
        omega)
      simp only [List.enumFrom_cons, List.map_cons, List.flatten_cons] at ih' ⊢
      rw [if_pos hc, List.intersperse_cons_cons]
      simp only [List.flatten_cons]
      rw [← ih']
      simp [List.append_assoc]

lemma buildFragments_eq_intersperse (words : List WordEntry) :
    buildFragments words =
      (List.intersperse [Fragment.interWord]
        (words.enum.map (fun p => entryFragments p.1 p.2))).flatten :=
  buildFrags_enumFrom words.length words 0 (by simp)

lemma flatten_intersperse_length_three (blocks : List (List Fragment))
    (h : ∀ b ∈ blocks, b.length = 3) :
    (List.intersperse [Fragment.interWord] blocks).flatten.length =
      3 * blocks.length + (blocks.length - 1) := by
  induction blocks with
  | nil => rfl
  | cons b blocks ih =>
    cases blocks with
    | nil => simp [h b (by simp)]
    | cons b' bs =>
      have hb := h b (by simp)
      have ih' := ih (fun x hx => h x (by simp [hx]))
      rw [List.intersperse_cons_cons]
      simp only [List.flatten_cons, List.length_append, List.length_cons,
        List.length_nil, hb] at ih' ⊢
      omega

/-- Claim C1: The fragment sequence handed to the concatenation tool: for an
all-bilingual word list it has `3N + (N-1)` fragments; it is, in document
order, the per-entry blocks (primary, inter-language silence, secondary, or
primary alone when the secondary is absent) with the inter-word silence
between consecutive entries and after none else; a secondary-less entry
contributes exactly one fragment; no entry's slot is dropped; and a
completed job hands `merge_audio_files` exactly this sequence. -/
theorem C1_fragment_sequence (words : List WordEntry) :
    ((∀ e ∈ words, e.english.isSome) →
        (buildFragments words).length = 3 * words.length + (words.length - 1))
  ∧ buildFragments words =
      (List.intersperse [Fragment.interWord]
        (words.enum.map (fun p => entryFragments p.1 p.2))).flatten
  ∧ (∀ (i : Nat) (e : WordEntry), e.english = none →
        (entryFragments i e).length = 1)
  ∧ (∀ i, i < words.length → Fragment.speech i .zh ∈ buildFragments words)
  ∧ (∀ (tool : ExtTool) (synthOk : Nat → Lang → Nat → Bool)
        (lines : List (List Char)) (frags : List Fragment),
        convert_file_to_mp3 tool synthOk lines = .ok (.completed frags) →
        frags = buildFragments (parse_word_file lines)) := by
  refine ⟨fun hbi => ?_, buildFragments_eq_intersperse words,
    fun i e he => by simp [entryFragments, he], fun i hi => ?_,
    fun tool synthOk lines frags h => ?_⟩
  · rw [buildFragments_eq_intersperse words]
    rw [flatten_intersperse_length_three]
    · simp [List.enum_length]
    · intro b hb
      obtain ⟨p, hp, rfl⟩ := List.mem_map.1 hb
      obtain ⟨ix, ex⟩ := p
      obtain ⟨-, -, hex⟩ := List.mem_enumFrom hp
      have hmem : ex ∈ words := by
        rw [hex]
        exact List.getElem_mem _
      have := hbi ex hmem
      obtain ⟨x, hx⟩ := Option.isSome_iff_exists.1 this
      simp [entryFragments, hx]
  · have hlen : i < words.enum.length := by
      simpa [List.enum_length] using hi
    have hmem : (i, words[i]) ∈ words.enum := by
      rw [← List.getElem_enum words i hlen]
      exact List.getElem_mem hlen
    refine List.mem_flatten.2
      ⟨entryFragments i (words[i]) ++
          (if i < words.length - 1 then [Fragment.interWord] else []),
        List.mem_map_of_mem _ hmem, ?_⟩
    apply List.mem_append_left
    cases he : (words[i]).english <;> simp [entryFragments, he]
  · by_cases hp : parse_word_file lines = []
    · simp [convert_file_to_mp3, hp] at h
    · cases hsil : tool.silenceOk with
      | false =>
        simp [convert_file_to_mp3, hp, generate_silence, hsil,
          Except.bind] at h
      | true =>
        cases hmerge : tool.mergeOk with
        | false =>
          simp [convert_file_to_mp3, hp, generate_silence, hsil,
            merge_audio_files, hmerge, synthesizeAll_ok, Except.bind,
            Except.map] at h
        | true =>
          simp [convert_file_to_mp3, hp, generate_silence, hsil,
            merge_audio_files, hmerge, synthesizeAll_ok, Except.bind,
            Except.map] at h
          exact h.symm

/-- Witness for C1 on the two-entry bilingual list. -/
theorem C1_witness :
    (buildFragments [⟨"苹".data, some "a".data⟩, ⟨"香".data, some "b".data⟩]).length
        = 7 ∧
    Fragment.speech 1 .zh ∈
      buildFragments [⟨"苹".data, some "a".data⟩, ⟨"香".data, some "b".data⟩] := by
  constructor
  · have h := (C1_fragment_sequence
      [⟨"苹".data, some "a".data⟩, ⟨"香".data, some "b".data⟩]).1 (by decide)
    simpa using h
  · exact (C1_fragment_sequence
      [⟨"苹".data, some "a".data⟩, ⟨"香".data, some "b".data⟩]).2.2.2.1 1
      (by decide)

/-! ## Helper lemmas on slicing and category splitting -/

lemma flatten_slices {α : Type} (step : Nat) :
    ∀ (k : Nat) (l : List α),
    ((List.range k).map (fun i => (l.drop (i * step)).take step)).flatten =
      l.take (k * step) := by
  intro k
  induction k with
  | zero => intro l; simp
  | succ k ih =>
    intro l
    rw [List.range_succ_eq_map]
    simp only [List.map_cons, List.map_map, List.flatten_cons, Nat.zero_mul,
      List.drop_zero]
    have hcomp : ((fun i => (l.drop (i * step)).take step) ∘ Nat.succ) =
        fun i => ((l.drop step).drop (i * step)).take step := by
      funext i
      rw [Function.comp_apply, List.drop_drop]
      congr 2
      rw [Nat.succ_mul]
      omega
    rw [hcomp, ih (l.drop step), Nat.succ_mul,
      Nat.add_comm (k * step) step, List.take_add]

lemma le_ceilDiv_mul (n step : Nat) (h : 0 < step) :
    n ≤ (n + step - 1) / step * step := by
  have hdm := Nat.div_add_mod (n + step - 1) step
  have hrlt : (n + step - 1) % step < step := Nat.mod_lt _ h
  have h2 : (n + step - 1) / step * step + (n + step - 1) % step =
      n + step - 1 := by
    rw [Nat.mul_comm]
    exact hdm
  generalize hA : (n + step - 1) / step * step = A at h2 ⊢
  omega

lemma flatten_pySlices {α : Type} (step : Nat) (h : 0 < step) (l : List α) :
    (pySlices step l).flatten = l := by
  unfold pySlices
  rw [flatten_slices]
  exact List.take_of_length_le (le_ceilDiv_mul l.length step h)

lemma mem_of_mem_pySlices {α : Type} {step : Nat} {l b : List α}
    (hb : b ∈ pySlices step l) {x : α} (hx : x ∈ b) : x ∈ l := by
  obtain ⟨i, -, rfl⟩ := List.mem_map.1 hb
  exact ((List.take_sublist _ _).trans (List.drop_sublist _ _)).mem hx

lemma splitOneCategory_snd (max_size : Nat) (cat : String × List String)
    (h : ¬ cat.2.length ≤ max_size) :
    (splitOneCategory max_size cat).map Prod.snd = pySlices max_size cat.2 := by
  simp only [splitOneCategory, if_neg h, pySlices, List.map_map]
  rfl

/-- Claim C5: With the configured bound 60, no output category exceeds 60
words; the slices of a split category are consecutive and concatenate back
to the original word list (so their sizes sum to it); a category of at most
60 words is kept whole under its original name; and a 61-word category
splits into parts of sizes 60 and 1. -/
theorem C5_category_split (categories : List (String × List String)) :
    (∀ p ∈ split_large_categories categories 60, p.2.length ≤ 60)
  ∧ (∀ cat : String × List String,
        ((splitOneCategory 60 cat).map Prod.snd).flatten = cat.2)
  ∧ (∀ cat : String × List String, cat.2.length ≤ 60 →
        splitOneCategory 60 cat = [cat])
  ∧ (splitOneCategory 60 ("词", List.replicate 61 "w")).map
        (fun p => p.2.length) = [60, 1] := by
  refine ⟨fun p hp => ?_, fun cat => ?_, fun cat h => by
    simp [splitOneCategory, h], by decide⟩
  · obtain ⟨cat, hcat, hpc⟩ := List.mem_flatMap.1 hp
    by_cases h : cat.2.length ≤ 60
    · simp only [splitOneCategory, if_pos h, List.mem_singleton] at hpc
      subst hpc
      exact h
    · simp only [splitOneCategory, if_neg h, List.mem_map] at hpc
      obtain ⟨i, -, rfl⟩ := hpc
      exact List.length_take_le 60 _
  · by_cases h : cat.2.length ≤ 60
    · simp [splitOneCategory, h]
    · rw [splitOneCategory_snd 60 cat h]
      exact flatten_pySlices 60 (by omega) cat.2

/-- Witness for C5: a two-word category is kept whole. -/
theorem C5_witness :
    splitOneCategory 60 ("动物", ["cat", "dog"]) = [("动物", ["cat", "dog"])] :=
  (C5_category_split []).2.2.1 ("动物", ["cat", "dog"]) (by decide)

/-! ## Helper lemmas on translation -/

lemma foldl_update_not_mem {β : Type} (key : β → String)
    (val : β → Option String) (w : String) :
    ∀ (ps : List β) (t : String → Option String),
    (∀ p ∈ ps, key p ≠ w) →
    (ps.foldl (fun t p => Function.update t (key p) (val p)) t) w = t w := by
  intro ps
  induction ps with
  | nil => intro t _; rfl
  | cons p ps ih =>
    intro t h
    rw [List.foldl_cons, ih _ (fun q hq => h q (List.mem_cons_of_mem p hq))]
    exact Function.update_noteq (Ne.symm (h p (List.mem_cons_self p ps))) _ _

lemma foldl_update_mem {β : Type} (key : β → String)
    (val : β → Option String) (w : String) :
    ∀ (ps : List β) (t : String → Option String),
    (∃ p ∈ ps, key p = w) → (∀ p ∈ ps, key p = w → val p = some w) →
    (ps.foldl (fun t p => Function.update t (key p) (val p)) t) w = some w := by
  intro ps
  induction ps with
  | nil =>
    rintro t ⟨p, hp, -⟩ _
    simp at hp
  | cons p ps ih =>
    intro t hex hval
    rw [List.foldl_cons]
    by_cases hps : ∃ q ∈ ps, key q = w
    · exact ih _ hps (fun q hq => hval q (List.mem_cons_of_mem p hq))
    · obtain ⟨q, hq, hkq⟩ := hex
      have hqp : q = p := by
        rcases List.mem_cons.1 hq with h | h
        · exact h
        · exact absurd ⟨q, h, hkq⟩ hps
      subst hqp
      rw [foldl_update_not_mem key val w ps _
        (fun r hr he => hps ⟨r, hr, he⟩), hkq, Function.update_same]
      exact hval q (List.mem_cons_self q ps) hkq

lemma translateBatch_not_mem (backend : TransBackend)
    (tr : String → Option String) (batch : List String) (w : String)
    (hw : w ∉ batch) : translateBatch backend tr batch w = tr w := by
  unfold translateBatch
  cases backend.batchLines batch with
  | some translated =>
    exact foldl_update_not_mem (fun p => p.1)
      (fun p => some (pyStripStr p.2)) w (batch.zip translated) tr
      (fun p hp he => hw (he ▸ (List.of_mem_zip hp).1))
  | none =>
    exact foldl_update_not_mem (fun x => x)
      (fun x => match backend.oneResult x with
        | some tx => some tx
        | none => some x) w batch tr (fun x hx he => hw (he ▸ hx))

lemma foldl_translateBatch_not_mem (backend : TransBackend) :
    ∀ (bs : List (List String)) (tr : String → Option String) (w : String),
    (∀ b ∈ bs, w ∉ b) → (bs.foldl (translateBatch backend) tr) w = tr w := by
  intro bs
  induction bs with
  | nil => intro tr w _; rfl
  | cons b bs ih =>
    intro tr w h
    rw [List.foldl_cons, ih _ _ (fun x hx => h x (List.mem_cons_of_mem b hx))]
    exact translateBatch_not_mem backend tr b w (h b (List.mem_cons_self b bs))

/-- Claim C7: Re-running translation with a populated cache: the words sent to
the backend are exactly the uncached input words, and every cached entry
survives into the result unchanged. -/
theorem C7_cache_idempotence (backend : TransBackend)
    (cache : String → Option String) (words : List String) :
    (∀ w v, cache w = some v → translate_words backend cache words w = some v)
  ∧ (∀ w, w ∈ sentWords backend cache words ↔ w ∈ words ∧ cache w = none) := by
  constructor
  · intro w v hv
    unfold translate_words
    rw [foldl_translateBatch_not_mem]
    · exact hv
    · intro b hb hw
      have hmem : w ∈ words_to_translate cache words :=
        mem_of_mem_pySlices hb hw
      have hnone : cache w = none := by
        have := (List.mem_filter.1 hmem).2
        simpa using this
      rw [hnone] at hv
      exact Option.noConfusion hv
  · intro w
    unfold sentWords
    constructor
    · intro hw
      obtain ⟨b, hb, hwb⟩ := List.mem_flatMap.1 hw
      have hwb' : w ∈ b := by
        cases hbl : backend.batchLines b with
        | none =>
          rw [hbl] at hwb
          simpa using hwb
        | some translated =>
          rw [hbl] at hwb
          exact hwb
      have hmem : w ∈ words_to_translate cache words :=
        mem_of_mem_pySlices hb hwb'
      have := List.mem_filter.1 hmem
      exact ⟨this.1, by simpa using this.2⟩
    · rintro ⟨hww, hcw⟩
      have hmem : w ∈ words_to_translate cache words :=
        List.mem_filter.2 ⟨hww, by simp [hcw]⟩
      have hfl : w ∈ (pySlices 50 (words_to_translate cache words)).flatten := by
        rw [flatten_pySlices 50 (by omega)]
        exact hmem
      obtain ⟨b, hb, hwb⟩ := List.mem_flatten.1 hfl
      refine List.mem_flatMap.2 ⟨b, hb, ?_⟩
      cases backend.batchLines b with
      | none => simp [hwb]
      | some translated => exact hwb

/-- Witness for C7: a cached word keeps its cached translation. -/
theorem C7_witness :
    translate_words ⟨fun _ => none, fun _ => none⟩
      (fun w => if w = "cat" then some "猫" else none) ["cat", "dog"] "cat" =
      some "猫" :=
  (C7_cache_idempotence ⟨fun _ => none, fun _ => none⟩
    (fun w => if w = "cat" then some "猫" else none) ["cat", "dog"]).1
    "cat" "猫" rfl

/-- Claim C9: A written category file is the display title — the category
name with every underscore removed — followed by the word lines in
lexicographically sorted order of the original English word (a sorted
permutation of the category's words, not their input order). -/
theorem C9_sorted_category_files (translations : String → Option String)
    (cat_name : String) (words : List String) :
    ∃ ws : List String, List.Perm ws words ∧
      List.Sorted (fun a b : String => a ≤ b) ws ∧
      save_category_lines translations cat_name words =
        display_name cat_name ::
          ws.map (fun w => (translations w).getD w ++ " " ++ w) ∧
      (display_name cat_name).data = cat_name.data.filter (fun c => c ≠ '_') :=
  ⟨words.mergeSort (fun a b => a ≤ b), List.mergeSort_perm words _,
    List.sorted_mergeSort' words, rfl, rfl⟩

/-- Witness for C9 at a two-word category. -/
theorem C9_witness :
    ∃ ws : List String, List.Perm ws ["b", "a"] ∧
      List.Sorted (fun a b : String => a ≤ b) ws ∧
      save_category_lines (fun _ => none) "x_1" ["b", "a"] =
        display_name "x_1" ::
          ws.map (fun w =>
            ((fun _ => (none : Option String)) w).getD w ++ " " ++ w) ∧
      (display_name "x_1").data = "x_1".data.filter (fun c => c ≠ '_') :=
  C9_sorted_category_files (fun _ => none) "x_1" ["b", "a"]

lemma foldl_batches_self (backend : TransBackend) (w : String)
    (hone : backend.oneResult w = none)
    (hbatch : ∀ b, w ∈ b → backend.batchLines b = none) :
    ∀ (bs : List (List String)) (tr : String → Option String),
    (∃ b ∈ bs, w ∈ b) →
    (bs.foldl (translateBatch backend) tr) w = some w := by
  intro bs
  induction bs with
  | nil =>
    rintro tr ⟨b, hb, -⟩
    simp at hb
  | cons b bs ih =>
    intro tr hex
    rw [List.foldl_cons]
    by_cases hbs : ∃ b' ∈ bs, w ∈ b'
    · exact ih _ hbs
    · obtain ⟨b', hb', hwb'⟩ := hex
      have hbb : b' = b := by
        rcases List.mem_cons.1 hb' with h | h
        · exact h
        · exact absurd ⟨b', h, hwb'⟩ hbs
      subst hbb
      rw [foldl_translateBatch_not_mem backend bs _ w
        (fun x hx hwx => hbs ⟨x, hx, hwx⟩)]
      unfold translateBatch
      rw [hbatch b' hwb']
      refine foldl_update_mem (fun x => x) _ w b' tr ⟨w, hwb', rfl⟩ ?_
      intro p _ hpw
      have hpw' : p = w := hpw
      subst hpw'
      rw [hone]

/-- Claim C10: When the batched call for a word's batch raises and the
per-word retry raises as well, the word is mapped to itself — its category
file line becomes the word twice — and the run continues (the failure is
absorbed; `translate_words` still returns a complete mapping). -/
theorem C10_double_failure_self_translation (backend : TransBackend)
    (cache : String → Option String) (words : List String) (w : String)
    (hw : w ∈ words) (hc : cache w = none)
    (hbatch : ∀ b, w ∈ b → backend.batchLines b = none)
    (hone : backend.oneResult w = none) :
    translate_words backend cache words w = some w ∧
    ∀ (cat_name : String) (ws : List String), w ∈ ws →
      (w ++ " " ++ w) ∈
        save_category_lines (translate_words backend cache words)
          cat_name ws := by
  have hself : translate_words backend cache words w = some w := by
    unfold translate_words
    apply foldl_batches_self backend w hone hbatch
    have hmem : w ∈ words_to_translate cache words :=
      List.mem_filter.2 ⟨hw, by simp [hc]⟩
    have hfl : w ∈ (pySlices 50 (words_to_translate cache words)).flatten := by
      rw [flatten_pySlices 50 (by omega)]
      exact hmem
    exact List.mem_flatten.1 hfl
  refine ⟨hself, fun cat_name ws hws => ?_⟩
  unfold save_category_lines
  apply List.mem_cons_of_mem
  refine List.mem_map.2 ⟨w, ?_, ?_⟩
  · exact ((List.mergeSort_perm ws (fun a b => a ≤ b)).mem_iff).2 hws
  · rw [hself]
    rfl

/-- Witness for C10: backend down for batch and per-word calls alike. -/
theorem C10_witness :
    translate_words ⟨fun _ => none, fun _ => none⟩ (fun _ => none)
        ["dog"] "dog" = some "dog" ∧
    ("dog" ++ " " ++ "dog") ∈
      save_category_lines
        (translate_words ⟨fun _ => none, fun _ => none⟩ (fun _ => none)
          ["dog"]) "动物" ["dog"] := by
  have h := C10_double_failure_self_translation
    ⟨fun _ => none, fun _ => none⟩ (fun _ => none) ["dog"] "dog"
    (List.mem_singleton.2 rfl) rfl (fun _ _ => rfl) rfl
  exact ⟨h.1, h.2 "动物" ["dog"] (List.mem_singleton.2 rfl)⟩

end Voice
